import Mathlib

/-!
Verification of `find-orphaned-helmreleases.py`.

The script reconciles FluxCD Kustomization inventories against labeled
HelmRelease resources and interactively deletes the orphans.  This file
gives a shallow embedding of its core logic:

* the inventory-entry codec inside `get_managed_helmreleases_from_inventory`
  (substring marker tests, split on the underscore delimiter);
* the ownership set builder (a Python `set` of `"namespace/name"` strings);
* the orphan detector `find_orphaned_helmreleases`;
* the interactive cleanup loop `cleanup_orphans_interactive`, modelled as a
  state machine driven by a finite list of operator input strings, with the
  external `kubectl delete` call abstracted as a success oracle
  `del : String → String → Bool`.

Machine strings are modelled as Lean `String`; Python's `in` substring test
and `str.split` are re-implemented structurally below so that everything
evaluates by `decide`.
-/

/-- Python list/char-level test: `pat` is a leading segment of `l`.
Mirrors the scanning done by Python's `in` operator. -/
def prefChars : List Char → List Char → Bool
  | [], _ => true
  | _ :: _, [] => false
  | a :: as, b :: bs => a = b && prefChars as bs

/-- Substring scan over character lists: some suffix of `hay` starts with
`pat`.  This is Python's `pat in hay` on strings. -/
def subChars (pat : List Char) : List Char → Bool
  | [] => prefChars pat []
  | c :: cs => prefChars pat (c :: cs) || subChars pat cs

/-- Python's `needle in hay` substring containment on strings. -/
def containsSub (needle hay : String) : Bool :=
  subChars needle.data hay.data

/-- Python's `s.split(sep)` for a one-character separator, on character
lists: always returns at least one (possibly empty) token. -/
def splitOnChar (sep : Char) : List Char → List (List Char)
  | [] => [[]]
  | c :: cs =>
    let r := splitOnChar sep cs
    if c = sep then [] :: r
    else
      match r with
      | [] => [[c]]
      | p :: ps => (c :: p) :: ps

/-- Python `entry_id.split("_")` from the source, as a list of strings. -/
def splitUnderscore (s : String) : List String :=
  (splitOnChar '_' s.data).map String.mk

/-- The inventory-entry codec embedded from
`get_managed_helmreleases_from_inventory` (lines 66-78): an entry id is
accepted when it contains both the kind marker `"_HelmRelease"` and the
group marker `"helm.toolkit.fluxcd.io"`; it is then split on `"_"` and,
when at least two tokens result, the first token is the namespace and the
second the name of the decoded ownership key. -/
def parseInventoryEntry (entry_id : String) : Option (String × String) :=
  if containsSub "_HelmRelease" entry_id && containsSub "helm.toolkit.fluxcd.io" entry_id then
    match splitUnderscore entry_id with
    | ns :: name :: _ => some (ns, name)
    | _ => none
  else none

/-- The inventory entry id format documented at line 67 of the source:
`namespace_name_group_kind` joined by underscores. -/
def inventoryEntryId (ns name group kind : String) : String :=
  ns ++ "_" ++ name ++ "_" ++ group ++ "_" ++ kind

/-- One entry of a Kustomization inventory: `{"id": ..., "v": ...}`. -/
structure InventoryEntry where
  id : String
  v : String
  deriving DecidableEq

/-- A Flux Kustomization as the script reads it: metadata name/namespace
and the `status.inventory.entries` list. -/
structure Kustomization where
  name : String
  namespace' : String
  entries : List InventoryEntry
  deriving DecidableEq

/-- The `"namespace/name"` key string the script stores in its managed set
(line 79: `f"{ns}/{name}"`). -/
def releaseKey (ns name : String) : String :=
  ns ++ "/" ++ name

/-- Body of the entry loop (lines 66-79): insert the decoded key of an
accepted entry into the set, leave the set unchanged otherwise. -/
def insertEntry (acc : Finset String) (e : InventoryEntry) : Finset String :=
  match parseInventoryEntry e.id with
  | some (ns, name) => insert (releaseKey ns name) acc
  | none => acc

/-- Embeds `get_managed_helmreleases_from_inventory` (lines 52-81): fold over all
Kustomizations and all of their inventory entries, inserting the decoded
`"namespace/name"` key of every accepted entry into a set. -/
def get_managed_helmreleases_from_inventory (kustomizations : List Kustomization) :
    Finset String :=
  kustomizations.foldl (fun acc ks => ks.entries.foldl insertEntry acc) ∅

/-- A HelmRelease as the script reads it: metadata name, namespace and
labels (a Python dict, modelled as an association list with unique keys
looked up front-to-back). -/
structure CandidateResource where
  name : String
  namespace' : String
  labels : List (String × String)
  deriving DecidableEq

/-- Python `labels.get(k)`: first value bound to `k`, if any. -/
def getLabel (labels : List (String × String)) (k : String) : Option String :=
  (labels.find? (fun p => p.1 = k)).map (fun p => p.2)

/-- Python truthiness of an `Optional[str]`: `None` and `""` are falsy. -/
def truthyStr : Option String → Bool
  | none => false
  | some s => !(s = "")

/-- The owner-name label key used at line 123. -/
def ksNameLabel : String := "kustomize.toolkit.fluxcd.io/name"

/-- The owner-namespace label key used at line 124. -/
def ksNamespaceLabel : String := "kustomize.toolkit.fluxcd.io/namespace"

/-- An orphan record as built at lines 132-139 of the source. -/
structure OrphanRecord where
  name : String
  namespace' : String
  original_kustomization_name : String
  original_kustomization_namespace : String
  labels : List (String × String)
  raw : CandidateResource
  deriving DecidableEq

/-- The loop body of `find_orphaned_helmreleases` (lines 116-139) for one
candidate: if both kustomize labels are truthy and the candidate's
`"namespace/name"` key is not in the managed set, produce its orphan
record. -/
def orphanCheck (managed : Finset String) (hr : CandidateResource) :
    Option OrphanRecord :=
  let ks_name := getLabel hr.labels ksNameLabel
  let ks_namespace := getLabel hr.labels ksNamespaceLabel
  if truthyStr ks_name && truthyStr ks_namespace then
    if releaseKey hr.namespace' hr.name ∈ managed then none
    else
      some
        { name := hr.name
          namespace' := hr.namespace'
          original_kustomization_name := ks_name.getD ""
          original_kustomization_namespace := ks_namespace.getD ""
          labels := hr.labels
          raw := hr }
  else none

/-- Embeds `find_orphaned_helmreleases` (lines 105-141). -/
def find_orphaned_helmreleases (helmreleases : List CandidateResource)
    (managed_releases : Finset String) : List OrphanRecord :=
  helmreleases.filterMap (orphanCheck managed_releases)

/-- A candidate "carries both distinguished owner labels" in the sense the
detector reads them: each label is present with a non-empty value (Python
truthiness of `labels.get(...)`). -/
def carriesOwnerLabels (hr : CandidateResource) : Bool :=
  truthyStr (getLabel hr.labels ksNameLabel) &&
    truthyStr (getLabel hr.labels ksNamespaceLabel)

/-! ## The interactive cleanup workflow

`cleanup_orphans_interactive` (lines 199-286) is modelled as a state
machine driven by a finite list of operator answer strings.  Each prompt
consumes exactly one answer; running out of answers models the Python
process blocking forever on `input()` and is reported as a distinct
terminal.  The external `kubectl delete` call is abstracted as an oracle
`del : String → String → Bool` giving the success of deleting a given
`(namespace, name)`.  Alongside the two counters of the source the model
keeps ghost trace fields: the deletion calls issued and the per-resource
outcome of every visited orphan. -/

/-- Per-resource result of the workflow. -/
inductive CleanupOutcome
  | Deleted
  | SkippedByChoice
  | SkippedByFailure
  deriving DecidableEq

/-- Mutable state of the cleanup loop: the two counters of the source
plus ghost traces of deletion calls and recorded outcomes. -/
structure WorkSt where
  deleted_count : Nat
  skipped_count : Nat
  deletions : List (String × String)
  outcomes : List (OrphanRecord × CleanupOutcome)
  deriving DecidableEq

/-- The zero state at the top of `cleanup_orphans_interactive`. -/
def initSt : WorkSt := ⟨0, 0, [], []⟩

/-- One deletion attempt (lines 242-245 and 266-269): call the delete
oracle, increment `deleted_count` on success and `skipped_count` on
failure, and record the call and the outcome. -/
def applyDelete (del : String → String → Bool) (st : WorkSt) (o : OrphanRecord) :
    WorkSt :=
  let ok := del o.namespace' o.name
  { deleted_count := if ok then st.deleted_count + 1 else st.deleted_count
    skipped_count := if ok then st.skipped_count else st.skipped_count + 1
    deletions := st.deletions ++ [(o.namespace', o.name)]
    outcomes :=
      st.outcomes ++ [(o, if ok then CleanupOutcome.Deleted else CleanupOutcome.SkippedByFailure)] }

/-- Recording one orphan skipped by operator choice. -/
def skipChoice (st : WorkSt) (o : OrphanRecord) : WorkSt :=
  { deleted_count := st.deleted_count
    skipped_count := st.skipped_count + 1
    deletions := st.deletions
    outcomes := st.outcomes ++ [(o, CleanupOutcome.SkippedByChoice)] }

/-- The `yes` branch at a namespace prompt (lines 239-246): attempt to
delete every orphan of the namespace in order. -/
def deleteAll (del : String → String → Bool) (st : WorkSt)
    (g : List OrphanRecord) : WorkSt :=
  g.foldl (applyDelete del) st

/-- The `no` branch at a namespace prompt (lines 248-251): every orphan of
the namespace is skipped by choice. -/
def skipAll (st : WorkSt) (g : List OrphanRecord) : WorkSt :=
  g.foldl skipChoice st

/-- How a run of the workflow ended. -/
inductive TermKind
  | completed
  | abortedAtNamespace
  | abortedAtResource
  | outOfInput
  | noWork
  deriving DecidableEq

/-- Result of a workflow run: final state, the accounting actually printed
(`none` when the run printed no deleted/skipped counts), the kind of
termination, and the orphans never visited. -/
structure CleanupResult where
  st : WorkSt
  reported : Option (Nat × Nat)
  term : TermKind
  unvisited : List OrphanRecord
  deriving DecidableEq

/-- Control position of the loop: at a namespace prompt with the pending
namespace groups, or at a per-resource prompt inside `select` mode (the
current orphan, the rest of its namespace group, and the remaining
namespace groups). -/
inductive CtrlSt
  | atNamespaces (gs : List (String × List OrphanRecord))
  | inSelect (cur : OrphanRecord) (ro : List OrphanRecord)
      (gs : List (String × List OrphanRecord))
  deriving DecidableEq

/-- All orphans not yet visited at a given control position. -/
def pendingOf : CtrlSt → List OrphanRecord
  | CtrlSt.atNamespaces gs => (gs.map (fun g => g.2)).flatten
  | CtrlSt.inSelect o ro gs => o :: (ro ++ (gs.map (fun g => g.2)).flatten)

/-- The prompt loop of `cleanup_orphans_interactive` (lines 222-281).
Structural recursion on the operator's answer list: every prompt consumes
one answer.  At a namespace prompt `q` aborts printing a summary that adds
all still-pending orphans to the skipped tally (line 236), `y` deletes the
whole group, `n` skips it, `s` enters the per-resource sub-flow, anything
else re-prompts.  At a per-resource prompt `q` aborts with no summary
(lines 262-264), `y` attempts the one deletion, `n` skips the one orphan,
anything else re-prompts.  When the namespace list is exhausted the
`CLEANUP COMPLETE` accounting is printed (lines 282-286). -/
def runCleanup (del : String → String → Bool) :
    List String → CtrlSt → WorkSt → CleanupResult
  | _, CtrlSt.atNamespaces [], st =>
    { st := st
      reported := some (st.deleted_count, st.skipped_count)
      term := TermKind.completed
      unvisited := [] }
  | [], ctrl, st =>
    { st := st, reported := none, term := TermKind.outOfInput, unvisited := pendingOf ctrl }
  | choice :: rest, CtrlSt.atNamespaces ((ns, g) :: gs), st =>
    if choice = "q" then
      { st := st
        reported :=
          some (st.deleted_count,
            st.skipped_count + (g ++ (gs.map (fun g' => g'.2)).flatten).length)
        term := TermKind.abortedAtNamespace
        unvisited := g ++ (gs.map (fun g' => g'.2)).flatten }
    else if choice = "y" then
      runCleanup del rest (CtrlSt.atNamespaces gs) (deleteAll del st g)
    else if choice = "n" then
      runCleanup del rest (CtrlSt.atNamespaces gs) (skipAll st g)
    else if choice = "s" then
      match g with
      | [] => runCleanup del rest (CtrlSt.atNamespaces gs) st
      | o :: g' => runCleanup del rest (CtrlSt.inSelect o g' gs) st
    else
      runCleanup del rest (CtrlSt.atNamespaces ((ns, g) :: gs)) st
  | choice :: rest, CtrlSt.inSelect o ro gs, st =>
    if choice = "q" then
      { st := st
        reported := none
        term := TermKind.abortedAtResource
        unvisited := o :: (ro ++ (gs.map (fun g' => g'.2)).flatten) }
    else if choice = "y" then
      match ro with
      | [] => runCleanup del rest (CtrlSt.atNamespaces gs) (applyDelete del st o)
      | o' :: ro' => runCleanup del rest (CtrlSt.inSelect o' ro' gs) (applyDelete del st o)
    else if choice = "n" then
      match ro with
      | [] => runCleanup del rest (CtrlSt.atNamespaces gs) (skipChoice st o)
      | o' :: ro' => runCleanup del rest (CtrlSt.inSelect o' ro' gs) (skipChoice st o)
    else
      runCleanup del rest (CtrlSt.inSelect o ro gs) st

/-- Ascending insertion into a string list already sorted by `<`. -/
def insertSorted (s : String) : List String → List String
  | [] => [s]
  | t :: ts => if t < s then t :: insertSorted s ts else s :: t :: ts

/-- Python's `sorted` on a list of strings (insertion sort; only the fact
that it permutes its input is used below). -/
def sortStrings : List String → List String
  | [] => []
  | s :: ss => insertSorted s (sortStrings ss)

/-- Lines 205-210: group the orphans by namespace (a dict keeps the
original order inside each namespace) and walk the namespaces in sorted
order. -/
def groupByNamespace (orphans : List OrphanRecord) :
    List (String × List OrphanRecord) :=
  (sortStrings (orphans.map (fun o => o.namespace')).dedup).map
    (fun ns => (ns, orphans.filter (fun o => o.namespace' = ns)))

/-- Embeds `cleanup_orphans_interactive` (lines 199-286): nothing to do on an
empty orphan list (lines 201-203, no accounting printed), otherwise run
the prompt loop over the namespace groups. -/
def cleanup_orphans_interactive (del : String → String → Bool)
    (orphans : List OrphanRecord) (inputs : List String) : CleanupResult :=
  if orphans.isEmpty then
    { st := initSt, reported := none, term := TermKind.noWork, unvisited := [] }
  else
    runCleanup del inputs (CtrlSt.atNamespaces (groupByNamespace orphans)) initSt

/-! ## Trace lemmas for the per-namespace folds -/

theorem applyDelete_outcomes (del : String → String → Bool) (st : WorkSt)
    (o : OrphanRecord) :
    (applyDelete del st o).outcomes =
      st.outcomes ++
        [(o, if del o.namespace' o.name then CleanupOutcome.Deleted
             else CleanupOutcome.SkippedByFailure)] := rfl

theorem applyDelete_deletions (del : String → String → Bool) (st : WorkSt)
    (o : OrphanRecord) :
    (applyDelete del st o).deletions = st.deletions ++ [(o.namespace', o.name)] := rfl

theorem applyDelete_counts (del : String → String → Bool) (st : WorkSt)
    (o : OrphanRecord) :
    (applyDelete del st o).deleted_count + (applyDelete del st o).skipped_count =
      st.deleted_count + st.skipped_count + 1 := by
  by_cases h : del o.namespace' o.name <;> simp [applyDelete, h] <;> omega

theorem skipChoice_outcomes (st : WorkSt) (o : OrphanRecord) :
    (skipChoice st o).outcomes = st.outcomes ++ [(o, CleanupOutcome.SkippedByChoice)] := rfl

theorem deleteAll_outcomes_fst (del : String → String → Bool) :
    ∀ (g : List OrphanRecord) (st : WorkSt),
      (deleteAll del st g).outcomes.map Prod.fst = st.outcomes.map Prod.fst ++ g := by
  intro g
  induction g with
  | nil => intro st; simp [deleteAll]
  | cons o g ih =>
    intro st
    show (deleteAll del (applyDelete del st o) g).outcomes.map Prod.fst = _
    rw [ih, applyDelete_outcomes]
    simp

theorem deleteAll_deletions (del : String → String → Bool) :
    ∀ (g : List OrphanRecord) (st : WorkSt),
      (deleteAll del st g).deletions =
        st.deletions ++ g.map (fun o => (o.namespace', o.name)) := by
  intro g
  induction g with
  | nil => intro st; simp [deleteAll]
  | cons o g ih =>
    intro st
    show (deleteAll del (applyDelete del st o) g).deletions = _
    rw [ih, applyDelete_deletions]
    simp

theorem deleteAll_counts (del : String → String → Bool) :
    ∀ (g : List OrphanRecord) (st : WorkSt),
      (deleteAll del st g).deleted_count + (deleteAll del st g).skipped_count =
        st.deleted_count + st.skipped_count + g.length := by
  intro g
  induction g with
  | nil => intro st; simp [deleteAll]
  | cons o g ih =>
    intro st
    have h : deleteAll del st (o :: g) = deleteAll del (applyDelete del st o) g := rfl
    rw [h, ih, applyDelete_counts]
    simp [Nat.add_assoc, Nat.add_comm 1]

theorem skipAll_outcomes_fst :
    ∀ (g : List OrphanRecord) (st : WorkSt),
      (skipAll st g).outcomes.map Prod.fst = st.outcomes.map Prod.fst ++ g := by
  intro g
  induction g with
  | nil => intro st; simp [skipAll]
  | cons o g ih =>
    intro st
    show (skipAll (skipChoice st o) g).outcomes.map Prod.fst = _
    rw [ih, skipChoice_outcomes]
    simp

theorem skipAll_deletions :
    ∀ (g : List OrphanRecord) (st : WorkSt),
      (skipAll st g).deletions = st.deletions := by
  intro g
  induction g with
  | nil => intro st; simp [skipAll]
  | cons o g ih =>
    intro st
    show (skipAll (skipChoice st o) g).deletions = _
    rw [ih]
    rfl

theorem skipAll_counts :
    ∀ (g : List OrphanRecord) (st : WorkSt),
      (skipAll st g).deleted_count + (skipAll st g).skipped_count =
        st.deleted_count + st.skipped_count + g.length := by
  intro g
  induction g with
  | nil => intro st; simp [skipAll]
  | cons o g ih =>
    intro st
    have h : skipAll st (o :: g) = skipAll (skipChoice st o) g := rfl
    rw [h, ih]
    simp [skipChoice, Nat.add_assoc, Nat.add_comm 1]

/-! ## Invariants of the prompt loop -/

theorem runCleanup_trace (del : String → String → Bool) :
    ∀ (inputs : List String) (ctrl : CtrlSt) (st : WorkSt),
      (runCleanup del inputs ctrl st).st.outcomes.map Prod.fst ++
          (runCleanup del inputs ctrl st).unvisited =
        st.outcomes.map Prod.fst ++ pendingOf ctrl := by
  intro inputs
  induction inputs with
  | nil =>
    intro ctrl st
    cases ctrl with
    | atNamespaces gs =>
      cases gs with
      | nil => simp [runCleanup, pendingOf]
      | cons g gs => simp [runCleanup, pendingOf]
    | inSelect o ro gs => simp [runCleanup, pendingOf]
  | cons choice rest ih =>
    intro ctrl st
    cases ctrl with
    | atNamespaces gs =>
      cases gs with
      | nil => simp [runCleanup, pendingOf]
      | cons g gs =>
        obtain ⟨ns, g⟩ := g
        by_cases hq : choice = "q"
        · simp [runCleanup, hq, pendingOf]
        · by_cases hy : choice = "y"
          · simp only [runCleanup, hq, hy, String.reduceEq, reduceIte]
            rw [ih, deleteAll_outcomes_fst]
            simp [pendingOf]
          · by_cases hn : choice = "n"
            · simp only [runCleanup, hq, hy, hn, String.reduceEq, reduceIte]
              rw [ih, skipAll_outcomes_fst]
              simp [pendingOf]
            · by_cases hs : choice = "s"
              · cases g with
                | nil =>
                  simp only [runCleanup, hq, hy, hn, hs, String.reduceEq, reduceIte]
                  rw [ih]
                  simp [pendingOf]
                | cons o g' =>
                  simp only [runCleanup, hq, hy, hn, hs, String.reduceEq, reduceIte]
                  rw [ih]
                  simp [pendingOf]
              · simp only [runCleanup, hq, hy, hn, hs, String.reduceEq, reduceIte]
                rw [ih]
    | inSelect o ro gs =>
      by_cases hq : choice = "q"
      · simp [runCleanup, hq, pendingOf]
      · by_cases hy : choice = "y"
        · cases ro with
          | nil =>
            simp only [runCleanup, hq, hy, String.reduceEq, reduceIte]
            rw [ih, applyDelete_outcomes]
            simp [pendingOf]
          | cons o' ro' =>
            simp only [runCleanup, hq, hy, String.reduceEq, reduceIte]
            rw [ih, applyDelete_outcomes]
            simp [pendingOf]
        · by_cases hn : choice = "n"
          · cases ro with
            | nil =>
              simp only [runCleanup, hq, hy, hn, String.reduceEq, reduceIte]
              rw [ih, skipChoice_outcomes]
              simp [pendingOf]
            | cons o' ro' =>
              simp only [runCleanup, hq, hy, hn, String.reduceEq, reduceIte]
              rw [ih, skipChoice_outcomes]
              simp [pendingOf]
          · simp only [runCleanup, hq, hy, hn, String.reduceEq, reduceIte]
            rw [ih]

theorem pendingOf_cons (ns : String) (g : List OrphanRecord)
    (gs : List (String × List OrphanRecord)) :
    pendingOf (CtrlSt.atNamespaces ((ns, g) :: gs)) =
      g ++ pendingOf (CtrlSt.atNamespaces gs) := by
  simp [pendingOf]

theorem pendingOf_select (o : OrphanRecord) (ro : List OrphanRecord)
    (gs : List (String × List OrphanRecord)) :
    pendingOf (CtrlSt.inSelect o ro gs) =
      o :: (ro ++ pendingOf (CtrlSt.atNamespaces gs)) := by
  simp [pendingOf]

theorem runCleanup_counts (del : String → String → Bool) :
    ∀ (inputs : List String) (ctrl : CtrlSt) (st : WorkSt),
      (runCleanup del inputs ctrl st).st.deleted_count +
          (runCleanup del inputs ctrl st).st.skipped_count +
          st.outcomes.length =
        st.deleted_count + st.skipped_count +
          (runCleanup del inputs ctrl st).st.outcomes.length := by
  intro inputs
  induction inputs with
  | nil =>
    intro ctrl st
    cases ctrl with
    | atNamespaces gs => cases gs <;> simp [runCleanup]
    | inSelect o ro gs => simp [runCleanup]
  | cons choice rest ih =>
    intro ctrl st
    cases ctrl with
    | atNamespaces gs =>
      cases gs with
      | nil => simp [runCleanup]
      | cons g gs =>
        obtain ⟨ns, g⟩ := g
        by_cases hq : choice = "q"
        · simp [runCleanup, hq]
        · by_cases hy : choice = "y"
          · simp only [runCleanup, hq, hy, String.reduceEq, reduceIte]
            have h1 := ih (CtrlSt.atNamespaces gs) (deleteAll del st g)
            have h2 := deleteAll_counts del g st
            have h3 : (deleteAll del st g).outcomes.length = st.outcomes.length + g.length := by
              have := congrArg List.length (deleteAll_outcomes_fst del g st)
              simpa using this
            omega
          · by_cases hn : choice = "n"
            · simp only [runCleanup, hq, hy, hn, String.reduceEq, reduceIte]
              have h1 := ih (CtrlSt.atNamespaces gs) (skipAll st g)
              have h2 := skipAll_counts g st
              have h3 : (skipAll st g).outcomes.length = st.outcomes.length + g.length := by
                have := congrArg List.length (skipAll_outcomes_fst g st)
                simpa using this
              omega
            · by_cases hs : choice = "s"
              · cases g with
                | nil =>
                  simp only [runCleanup, hq, hy, hn, hs, String.reduceEq, reduceIte]
                  exact ih _ _
                | cons o g' =>
                  simp only [runCleanup, hq, hy, hn, hs, String.reduceEq, reduceIte]
                  exact ih _ _
              · simp only [runCleanup, hq, hy, hn, hs, String.reduceEq, reduceIte]
                exact ih _ _
    | inSelect o ro gs =>
      by_cases hq : choice = "q"
      · simp [runCleanup, hq]
      · by_cases hy : choice = "y"
        · have h2 := applyDelete_counts del st o
          have h3 : (applyDelete del st o).outcomes.length = st.outcomes.length + 1 := by
            have := congrArg List.length (applyDelete_outcomes del st o)
            simpa using this
          cases ro with
          | nil =>
            simp only [runCleanup, hq, hy, String.reduceEq, reduceIte]
            have h1 := ih (CtrlSt.atNamespaces gs) (applyDelete del st o)
            omega
          | cons o' ro' =>
            simp only [runCleanup, hq, hy, String.reduceEq, reduceIte]
            have h1 := ih (CtrlSt.inSelect o' ro' gs) (applyDelete del st o)
            omega
        · by_cases hn : choice = "n"
          · have h2 : (skipChoice st o).deleted_count = st.deleted_count := rfl
            have h2' : (skipChoice st o).skipped_count = st.skipped_count + 1 := rfl
            have h3 : (skipChoice st o).outcomes.length = st.outcomes.length + 1 := by
              have := congrArg List.length (skipChoice_outcomes st o)
              simpa using this
            cases ro with
            | nil =>
              simp only [runCleanup, hq, hy, hn, String.reduceEq, reduceIte]
              have h1 := ih (CtrlSt.atNamespaces gs) (skipChoice st o)
              omega
            | cons o' ro' =>
              simp only [runCleanup, hq, hy, hn, String.reduceEq, reduceIte]
              have h1 := ih (CtrlSt.inSelect o' ro' gs) (skipChoice st o)
              omega
          · simp only [runCleanup, hq, hy, hn, String.reduceEq, reduceIte]
            exact ih _ _

theorem runCleanup_reported (del : String → String → Bool) :
    ∀ (inputs : List String) (ctrl : CtrlSt) (st : WorkSt),
      ((runCleanup del inputs ctrl st).term = TermKind.completed →
        (runCleanup del inputs ctrl st).reported =
          some ((runCleanup del inputs ctrl st).st.deleted_count,
            (runCleanup del inputs ctrl st).st.skipped_count) ∧
        (runCleanup del inputs ctrl st).unvisited = []) ∧
      ((runCleanup del inputs ctrl st).term = TermKind.abortedAtNamespace →
        (runCleanup del inputs ctrl st).reported =
          some ((runCleanup del inputs ctrl st).st.deleted_count,
            (runCleanup del inputs ctrl st).st.skipped_count +
              (runCleanup del inputs ctrl st).unvisited.length)) ∧
      ((runCleanup del inputs ctrl st).term = TermKind.abortedAtResource →
        (runCleanup del inputs ctrl st).reported = none) ∧
      ((runCleanup del inputs ctrl st).term = TermKind.outOfInput →
        (runCleanup del inputs ctrl st).reported = none) ∧
      (runCleanup del inputs ctrl st).term ≠ TermKind.noWork := by
  intro inputs
  induction inputs with
  | nil =>
    intro ctrl st
    cases ctrl with
    | atNamespaces gs => cases gs <;> simp [runCleanup]
    | inSelect o ro gs => simp [runCleanup]
  | cons choice rest ih =>
    intro ctrl st
    cases ctrl with
    | atNamespaces gs =>
      cases gs with
      | nil => simp [runCleanup]
      | cons g gs =>
        obtain ⟨ns, g⟩ := g
        by_cases hq : choice = "q"
        · simp [runCleanup, hq]
        · by_cases hy : choice = "y"
          · simp only [runCleanup, hq, hy, String.reduceEq, reduceIte]
            exact ih _ _
          · by_cases hn : choice = "n"
            · simp only [runCleanup, hq, hy, hn, String.reduceEq, reduceIte]
              exact ih _ _
            · by_cases hs : choice = "s"
              · cases g with
                | nil =>
                  simp only [runCleanup, hq, hy, hn, hs, String.reduceEq, reduceIte]
                  exact ih _ _
                | cons o g' =>
                  simp only [runCleanup, hq, hy, hn, hs, String.reduceEq, reduceIte]
                  exact ih _ _
              · simp only [runCleanup, hq, hy, hn, hs, String.reduceEq, reduceIte]
                exact ih _ _
    | inSelect o ro gs =>
      by_cases hq : choice = "q"
      · simp [runCleanup, hq]
      · by_cases hy : choice = "y"
        · cases ro with
          | nil =>
            simp only [runCleanup, hq, hy, String.reduceEq, reduceIte]
            exact ih _ _
          | cons o' ro' =>
            simp only [runCleanup, hq, hy, String.reduceEq, reduceIte]
            exact ih _ _
        · by_cases hn : choice = "n"
          · cases ro with
            | nil =>
              simp only [runCleanup, hq, hy, hn, String.reduceEq, reduceIte]
              exact ih _ _
            | cons o' ro' =>
              simp only [runCleanup, hq, hy, hn, String.reduceEq, reduceIte]
              exact ih _ _
          · simp only [runCleanup, hq, hy, hn, String.reduceEq, reduceIte]
            exact ih _ _

theorem runCleanup_deletions (del : String → String → Bool) :
    ∀ (inputs : List String) (ctrl : CtrlSt) (st : WorkSt)
      (Q : String × String → Prop),
      (∀ p ∈ st.deletions, Q p) →
      (∀ o ∈ pendingOf ctrl, Q (o.namespace', o.name)) →
      ∀ p ∈ (runCleanup del inputs ctrl st).st.deletions, Q p := by
  intro inputs
  induction inputs with
  | nil =>
    intro ctrl st Q hst hpend
    cases ctrl with
    | atNamespaces gs => cases gs <;> simpa [runCleanup] using hst
    | inSelect o ro gs => simpa [runCleanup] using hst
  | cons choice rest ih =>
    intro ctrl st Q hst hpend
    cases ctrl with
    | atNamespaces gs =>
      cases gs with
      | nil => simpa [runCleanup] using hst
      | cons g gs =>
        obtain ⟨ns, g⟩ := g
        rw [pendingOf_cons] at hpend
        by_cases hq : choice = "q"
        · simpa [runCleanup, hq] using hst
        · by_cases hy : choice = "y"
          · simp only [runCleanup, hq, hy, String.reduceEq, reduceIte]
            refine ih _ _ Q ?_ ?_
            · intro p hp
              rw [deleteAll_deletions] at hp
              rcases List.mem_append.1 hp with h | h
              · exact hst p h
              · rcases List.mem_map.1 h with ⟨o, ho, rfl⟩
                exact hpend o (List.mem_append_left _ ho)
            · intro o ho
              exact hpend o (List.mem_append_right _ ho)
          · by_cases hn : choice = "n"
            · simp only [runCleanup, hq, hy, hn, String.reduceEq, reduceIte]
              refine ih _ _ Q ?_ ?_
              · intro p hp
                rw [skipAll_deletions] at hp
                exact hst p hp
              · intro o ho
                exact hpend o (List.mem_append_right _ ho)
            · by_cases hs : choice = "s"
              · cases g with
                | nil =>
                  simp only [runCleanup, hq, hy, hn, hs, String.reduceEq, reduceIte]
                  refine ih _ _ Q hst ?_
                  intro o ho
                  exact hpend o (List.mem_append_right _ ho)
                | cons o g' =>
                  simp only [runCleanup, hq, hy, hn, hs, String.reduceEq, reduceIte]
                  refine ih _ _ Q hst ?_
                  intro o' ho'
                  rw [pendingOf_select] at ho'
                  simpa using hpend o' (by simpa using ho')
              · simp only [runCleanup, hq, hy, hn, hs, String.reduceEq, reduceIte]
                refine ih _ _ Q hst ?_
                rw [pendingOf_cons]
                exact hpend
    | inSelect o ro gs =>
      rw [pendingOf_select] at hpend
      by_cases hq : choice = "q"
      · simpa [runCleanup, hq] using hst
      · by_cases hy : choice = "y"
        · have hst' : ∀ p ∈ (applyDelete del st o).deletions, Q p := by
            intro p hp
            rw [applyDelete_deletions] at hp
            rcases List.mem_append.1 hp with h | h
            · exact hst p h
            · simp only [List.mem_singleton] at h
              subst h
              exact hpend o (List.mem_cons_self _ _)
          cases ro with
          | nil =>
            simp only [runCleanup, hq, hy, String.reduceEq, reduceIte]
            refine ih _ _ Q hst' ?_
            intro o' ho'
            exact hpend o' (List.mem_cons_of_mem _ (List.mem_append_right _ ho'))
          | cons o2 ro' =>
            simp only [runCleanup, hq, hy, String.reduceEq, reduceIte]
            refine ih _ _ Q hst' ?_
            intro o' ho'
            rw [pendingOf_select] at ho'
            refine hpend o' (List.mem_cons_of_mem _ ?_)
            simpa using ho'
        · by_cases hn : choice = "n"
          · have hst' : ∀ p ∈ (skipChoice st o).deletions, Q p := hst
            cases ro with
            | nil =>
              simp only [runCleanup, hq, hy, hn, String.reduceEq, reduceIte]
              refine ih _ _ Q hst' ?_
              intro o' ho'
              exact hpend o' (List.mem_cons_of_mem _ (List.mem_append_right _ ho'))
            | cons o2 ro' =>
              simp only [runCleanup, hq, hy, hn, String.reduceEq, reduceIte]
              refine ih _ _ Q hst' ?_
              intro o' ho'
              rw [pendingOf_select] at ho'
              refine hpend o' (List.mem_cons_of_mem _ ?_)
              simpa using ho'
          · simp only [runCleanup, hq, hy, hn, String.reduceEq, reduceIte]
            refine ih _ _ Q hst ?_
            rw [pendingOf_select]
            exact hpend

/-! ## The namespace grouping is a partition of the orphan list -/

theorem insertSorted_perm (s : String) (l : List String) :
    List.Perm (insertSorted s l) (s :: l) := by
  induction l with
  | nil => exact List.Perm.refl _
  | cons t ts ih =>
    by_cases h : t < s
    · simp only [insertSorted, h, if_true]
      exact (ih.cons t).trans (List.Perm.swap s t ts)
    · simp only [insertSorted, h, if_false]
      exact List.Perm.refl _

theorem sortStrings_perm (l : List String) : List.Perm (sortStrings l) l := by
  induction l with
  | nil => exact List.Perm.refl _
  | cons s ss ih => exact (insertSorted_perm s (sortStrings ss)).trans (ih.cons s)

theorem count_flatten_filter (l : List OrphanRecord) :
    ∀ (nss : List String), nss.Nodup → ∀ o : OrphanRecord,
      ((nss.map (fun ns => l.filter (fun x => x.namespace' = ns))).flatten).count o =
        if o.namespace' ∈ nss then l.count o else 0 := by
  intro nss
  induction nss with
  | nil => intro _ o; simp
  | cons ns nss ih =>
    intro hnodup o
    have hns : ns ∉ nss := (List.nodup_cons.1 hnodup).1
    have htail := ih (List.nodup_cons.1 hnodup).2 o
    simp only [List.map_cons, List.flatten_cons, List.count_append]
    by_cases h : o.namespace' = ns
    · have h1 : l.count o = (l.filter (fun x => x.namespace' = ns)).count o := by
        rw [List.count_filter]
        simp [h]
      have h2 : o.namespace' ∉ nss := by rw [h]; exact hns
      rw [htail, if_neg h2, if_pos (show o.namespace' ∈ ns :: nss from by simp [h]), ← h1]
      omega
    · have h1 : (l.filter (fun x => x.namespace' = ns)).count o = 0 := by
        rw [List.count_eq_zero]
        intro hmem
        exact h (of_decide_eq_true (List.mem_filter.1 hmem).2)
      rw [htail, h1]
      simp [h]

theorem groupByNamespace_flatten_perm (orphans : List OrphanRecord) :
    List.Perm ((groupByNamespace orphans).map (fun g => g.2)).flatten orphans := by
  have hperm := sortStrings_perm ((orphans.map (fun o => o.namespace')).dedup)
  have hnodup : (sortStrings ((orphans.map (fun o => o.namespace')).dedup)).Nodup :=
    hperm.symm.nodup ((orphans.map (fun o => o.namespace')).nodup_dedup)
  have hmem : ∀ o : OrphanRecord, o ∈ orphans →
      o.namespace' ∈ sortStrings ((orphans.map (fun o => o.namespace')).dedup) := by
    intro o ho
    rw [hperm.mem_iff, List.mem_dedup]
    exact List.mem_map.2 ⟨o, ho, rfl⟩
  rw [List.perm_iff_count]
  intro o
  have hgrp :
      ((groupByNamespace orphans).map (fun g => g.2)).flatten =
        ((sortStrings ((orphans.map (fun o => o.namespace')).dedup)).map
          (fun ns => orphans.filter (fun x => x.namespace' = ns))).flatten := by
    simp [groupByNamespace, List.map_map, Function.comp_def]
  rw [hgrp, count_flatten_filter orphans _ hnodup o]
  by_cases h : o.namespace' ∈ sortStrings ((orphans.map (fun o => o.namespace')).dedup)
  · simp [h]
  · have : o ∉ orphans := fun ho => h (hmem o ho)
    simp [h, List.count_eq_zero.2 this]

/-! ## Codec lemmas -/

theorem prefChars_mem :
    ∀ (pat l : List Char), prefChars pat l = true → ∀ c ∈ pat, c ∈ l := by
  intro pat
  induction pat with
  | nil => intro l _ c hc; exact absurd hc (List.not_mem_nil c)
  | cons a as ih =>
    intro l h c hc
    cases l with
    | nil => exact absurd h (by simp [prefChars])
    | cons b bs =>
      simp only [prefChars, Bool.and_eq_true, decide_eq_true_eq] at h
      rcases List.mem_cons.1 hc with rfl | hc'
      · rw [h.1]; exact List.mem_cons_self _ _
      · exact List.mem_cons_of_mem _ (ih bs h.2 c hc')

theorem subChars_mem :
    ∀ (l pat : List Char), subChars pat l = true → ∀ c ∈ pat, c ∈ l := by
  intro l
  induction l with
  | nil =>
    intro pat h c hc
    cases pat with
    | nil => exact absurd hc (List.not_mem_nil c)
    | cons a as => exact absurd h (by simp [subChars, prefChars])
  | cons b bs ih =>
    intro pat h c hc
    simp only [subChars, Bool.or_eq_true] at h
    rcases h with h | h
    · exact prefChars_mem pat _ h c hc
    · exact List.mem_cons_of_mem _ (ih pat h c hc)

theorem splitOnChar_length_pos (sep : Char) :
    ∀ l : List Char, 1 ≤ (splitOnChar sep l).length := by
  intro l
  induction l with
  | nil => simp [splitOnChar]
  | cons c cs ih =>
    by_cases h : c = sep
    · simp [splitOnChar, h]
    · simp only [splitOnChar, h, if_false, ite_false]
      cases hr : splitOnChar sep cs with
      | nil => simp
      | cons p ps => simp

theorem splitOnChar_length_ge_two (sep : Char) :
    ∀ l : List Char, sep ∈ l → 2 ≤ (splitOnChar sep l).length := by
  intro l
  induction l with
  | nil => intro h; exact absurd h (List.not_mem_nil sep)
  | cons c cs ih =>
    intro hmem
    by_cases h : c = sep
    · have := splitOnChar_length_pos sep cs
      simp only [splitOnChar, h, if_true, ite_true, List.length_cons]
      omega
    · have hcs : sep ∈ cs := by
        rcases List.mem_cons.1 hmem with h' | h'
        · exact absurd h'.symm h
        · exact h'
      have h2 := ih hcs
      simp only [splitOnChar, h, if_false, ite_false]
      cases hr : splitOnChar sep cs with
      | nil => rw [hr] at h2; simp at h2
      | cons p ps =>
        rw [hr] at h2
        simpa using h2

theorem splitUnderscore_length_ge_two (s : String) (h : '_' ∈ s.data) :
    2 ≤ (splitUnderscore s).length := by
  rw [splitUnderscore, List.length_map]
  exact splitOnChar_length_ge_two '_' s.data h

theorem parseInventoryEntry_of_markers (entry_id : String)
    (h1 : containsSub "_HelmRelease" entry_id = true)
    (h2 : containsSub "helm.toolkit.fluxcd.io" entry_id = true) :
    2 ≤ (splitUnderscore entry_id).length ∧
      ∃ ns name rest, splitUnderscore entry_id = ns :: name :: rest ∧
        parseInventoryEntry entry_id = some (ns, name) := by
  have hu : '_' ∈ entry_id.data :=
    subChars_mem entry_id.data _ h1 '_' (by decide)
  have hlen := splitUnderscore_length_ge_two entry_id hu
  constructor
  · exact hlen
  · cases hsplit : splitUnderscore entry_id with
    | nil => rw [hsplit] at hlen; simp at hlen
    | cons ns tl =>
      cases tl with
      | nil => rw [hsplit] at hlen; simp at hlen
      | cons name rest =>
        refine ⟨ns, name, rest, rfl, ?_⟩
        simp [parseInventoryEntry, h1, h2, hsplit]

theorem parseInventoryEntry_none_of_no_marker (entry_id : String)
    (h : containsSub "_HelmRelease" entry_id = false ∨
      containsSub "helm.toolkit.fluxcd.io" entry_id = false) :
    parseInventoryEntry entry_id = none := by
  rcases h with h | h <;> simp [parseInventoryEntry, h]

/-! ## Ownership set builder lemmas -/

theorem mem_insertEntry (acc : Finset String) (e : InventoryEntry) (x : String) :
    x ∈ insertEntry acc e ↔
      x ∈ acc ∨ ∃ ns name, parseInventoryEntry e.id = some (ns, name) ∧
        x = releaseKey ns name := by
  cases h : parseInventoryEntry e.id with
  | none => simp [insertEntry, h]
  | some p =>
    obtain ⟨ns, name⟩ := p
    simp only [insertEntry, h, Finset.mem_insert]
    constructor
    · rintro (rfl | hx)
      · exact Or.inr ⟨ns, name, rfl, rfl⟩
      · exact Or.inl hx
    · rintro (hx | ⟨ns', name', heq, rfl⟩)
      · exact Or.inr hx
      · cases heq
        exact Or.inl rfl

theorem mem_entriesFold (x : String) :
    ∀ (entries : List InventoryEntry) (acc : Finset String),
      x ∈ entries.foldl insertEntry acc ↔
        x ∈ acc ∨ ∃ e ∈ entries, ∃ ns name,
          parseInventoryEntry e.id = some (ns, name) ∧ x = releaseKey ns name := by
  intro entries
  induction entries with
  | nil => intro acc; simp
  | cons e es ih =>
    intro acc
    rw [List.foldl_cons, ih, mem_insertEntry]
    constructor
    · rintro ((hx | ⟨ns, name, hp, rfl⟩) | ⟨e', he', hrest⟩)
      · exact Or.inl hx
      · exact Or.inr ⟨e, List.mem_cons_self _ _, ns, name, hp, rfl⟩
      · exact Or.inr ⟨e', List.mem_cons_of_mem _ he', hrest⟩
    · rintro (hx | ⟨e', he', hrest⟩)
      · exact Or.inl (Or.inl hx)
      · rcases List.mem_cons.1 he' with rfl | he''
        · exact Or.inl (Or.inr hrest)
        · exact Or.inr ⟨e', he'', hrest⟩

theorem mem_get_managed (x : String) :
    ∀ (kustomizations : List Kustomization) (acc : Finset String),
      x ∈ kustomizations.foldl (fun acc ks => ks.entries.foldl insertEntry acc) acc ↔
        x ∈ acc ∨ ∃ ks ∈ kustomizations, ∃ e ∈ ks.entries, ∃ ns name,
          parseInventoryEntry e.id = some (ns, name) ∧ x = releaseKey ns name := by
  intro kustomizations
  induction kustomizations with
  | nil => intro acc; simp
  | cons k ks ih =>
    intro acc
    rw [List.foldl_cons, ih, mem_entriesFold]
    constructor
    · rintro ((hx | ⟨e, he, hrest⟩) | ⟨k', hk', hrest⟩)
      · exact Or.inl hx
      · exact Or.inr ⟨k, List.mem_cons_self _ _, e, he, hrest⟩
      · exact Or.inr ⟨k', List.mem_cons_of_mem _ hk', hrest⟩
    · rintro (hx | ⟨k', hk', hrest⟩)
      · exact Or.inl (Or.inl hx)
      · rcases List.mem_cons.1 hk' with rfl | hk''
        · exact Or.inl (Or.inr hrest)
        · exact Or.inr ⟨k', hk'', hrest⟩

theorem mem_get_managed_iff (kustomizations : List Kustomization) (x : String) :
    x ∈ get_managed_helmreleases_from_inventory kustomizations ↔
      ∃ ks ∈ kustomizations, ∃ e ∈ ks.entries, ∃ ns name,
        parseInventoryEntry e.id = some (ns, name) ∧ x = releaseKey ns name := by
  rw [get_managed_helmreleases_from_inventory, mem_get_managed]
  simp

/-! ## Orphan detector lemmas -/

theorem orphanCheck_isSome_iff (managed : Finset String) (hr : CandidateResource) :
    (orphanCheck managed hr).isSome = true ↔
      carriesOwnerLabels hr = true ∧ releaseKey hr.namespace' hr.name ∉ managed := by
  rw [orphanCheck, carriesOwnerLabels]
  by_cases h : truthyStr (getLabel hr.labels ksNameLabel) &&
      truthyStr (getLabel hr.labels ksNamespaceLabel)
  · by_cases hm : releaseKey hr.namespace' hr.name ∈ managed
    · simp [h, hm]
    · simp [h, hm]
  · simp [h]

theorem orphanCheck_raw (managed : Finset String) (hr : CandidateResource)
    (r : OrphanRecord) (h : orphanCheck managed hr = some r) : r.raw = hr := by
  rw [orphanCheck] at h
  by_cases hl : truthyStr (getLabel hr.labels ksNameLabel) &&
      truthyStr (getLabel hr.labels ksNamespaceLabel)
  · by_cases hm : releaseKey hr.namespace' hr.name ∈ managed
    · simp [hl, hm] at h
    · simp only [hl, hm, if_true, if_false, ite_true, ite_false, Option.some.injEq] at h
      rw [← h]
  · simp [hl] at h

theorem mem_find_orphaned (helmreleases : List CandidateResource)
    (managed : Finset String) (r : OrphanRecord) :
    r ∈ find_orphaned_helmreleases helmreleases managed ↔
      ∃ hr ∈ helmreleases, orphanCheck managed hr = some r := by
  rw [find_orphaned_helmreleases, List.mem_filterMap]

/-! ## Concrete data for the closed witnesses and counterexamples -/

/-- Label map of a candidate that was managed by Kustomization
`flux-system/apps`. -/
def sampleLabels : List (String × String) :=
  [("kustomize.toolkit.fluxcd.io/name", "apps"),
   ("kustomize.toolkit.fluxcd.io/namespace", "flux-system")]

/-- A labeled candidate HelmRelease. -/
def sampleHr (ns name : String) : CandidateResource :=
  { name := name, namespace' := ns, labels := sampleLabels }

/-- A concrete orphan record. -/
def sampleOrphan (ns name : String) : OrphanRecord :=
  { name := name, namespace' := ns,
    original_kustomization_name := "apps",
    original_kustomization_namespace := "flux-system",
    labels := sampleLabels, raw := sampleHr ns name }

/-- A delete oracle on which every deletion succeeds. -/
def delOk : String → String → Bool := fun _ _ => true

/-! ## Claims -/

/-- C1: for every candidate-resource list and every ownership set, the
detector emits an orphan record for a candidate if and only if the
candidate carries both distinguished owner labels (each present with a
non-empty value, which is how the detector reads them — see C9) and its
`"namespace/name"` key is absent from the set; in particular a candidate
lacking either label is never reported. -/
theorem claim_C1_detector_iff (helmreleases : List CandidateResource)
    (managed : Finset String) (hr : CandidateResource) (hmem : hr ∈ helmreleases) :
    (∃ r ∈ find_orphaned_helmreleases helmreleases managed, r.raw = hr) ↔
      carriesOwnerLabels hr = true ∧
        releaseKey hr.namespace' hr.name ∉ managed := by
  constructor
  · rintro ⟨r, hrmem, hraw⟩
    obtain ⟨hr', hhr', hsome⟩ := (mem_find_orphaned _ _ _).1 hrmem
    have heq : hr' = hr := (orphanCheck_raw _ _ _ hsome).symm.trans hraw
    subst heq
    exact (orphanCheck_isSome_iff _ _).1 (by rw [hsome]; rfl)
  · rintro ⟨hc, hnm⟩
    have hsome : (orphanCheck managed hr).isSome = true :=
      (orphanCheck_isSome_iff _ _).2 ⟨hc, hnm⟩
    obtain ⟨r, hr_eq⟩ := Option.isSome_iff_exists.1 hsome
    exact ⟨r, (mem_find_orphaned _ _ _).2 ⟨hr, hmem, hr_eq⟩, orphanCheck_raw _ _ _ hr_eq⟩

theorem claim_C1_detector_iff_witness :
    (∃ r ∈ find_orphaned_helmreleases [sampleHr "teamA" "web-release"] ∅,
        r.raw = sampleHr "teamA" "web-release") ↔
      carriesOwnerLabels (sampleHr "teamA" "web-release") = true ∧
        releaseKey (sampleHr "teamA" "web-release").namespace'
          (sampleHr "teamA" "web-release").name ∉ (∅ : Finset String) :=
  claim_C1_detector_iff _ _ _ (by decide)

/-- C2: an entry identifier that contains both the kind marker
`"_HelmRelease"` and the group marker `"helm.toolkit.fluxcd.io"` always
splits into at least two underscore tokens and decodes to `some` key whose
namespace is the first token and name the second; identifiers lacking a
marker decode to `none`; and the concrete identifier of Scenario A decodes
to `("teamA", "web-release")`. -/
theorem claim_C2_codec :
    (∀ entry_id : String,
        containsSub "_HelmRelease" entry_id = true →
        containsSub "helm.toolkit.fluxcd.io" entry_id = true →
          2 ≤ (splitUnderscore entry_id).length ∧
            ∃ ns name rest, splitUnderscore entry_id = ns :: name :: rest ∧
              parseInventoryEntry entry_id = some (ns, name)) ∧
    (∀ entry_id : String,
        containsSub "_HelmRelease" entry_id = false ∨
          containsSub "helm.toolkit.fluxcd.io" entry_id = false →
        parseInventoryEntry entry_id = none) ∧
    parseInventoryEntry "teamA_web-release_helm.toolkit.fluxcd.io_HelmRelease" =
      some ("teamA", "web-release") :=
  ⟨fun entry_id h1 h2 => parseInventoryEntry_of_markers entry_id h1 h2,
   fun entry_id h => parseInventoryEntry_none_of_no_marker entry_id h,
   by decide⟩

theorem claim_C2_codec_witness :
    2 ≤ (splitUnderscore "teamA_web-release_helm.toolkit.fluxcd.io_HelmRelease").length ∧
      ∃ ns name rest,
        splitUnderscore "teamA_web-release_helm.toolkit.fluxcd.io_HelmRelease" =
          ns :: name :: rest ∧
        parseInventoryEntry "teamA_web-release_helm.toolkit.fluxcd.io_HelmRelease" =
          some (ns, name) :=
  claim_C2_codec.1 _ (by decide) (by decide)

/-- C3 counterexample: the claim that entries of every kind other than
HelmRelease are filtered out is false.  The codec only tests substring
containment, so the identifier of a resource of kind `HelmReleaseProxy`
in group `helm.toolkit.fluxcd.io` still decodes to a key. -/
theorem claim_C3_counterexample :
    parseInventoryEntry
        (inventoryEntryId "teamA" "web-release" "helm.toolkit.fluxcd.io" "HelmReleaseProxy") =
      some ("teamA", "web-release") ∧
    "HelmReleaseProxy" ≠ "HelmRelease" := by
  exact ⟨by decide, by decide⟩

/-- C3 (amended): the markers are necessary — an identifier lacking the
kind marker substring or the group marker substring yields no key — but
they are only substring tests, so identifiers of other kinds that contain
both markers as substrings (such as kind `HelmReleaseProxy`) still yield a
key. -/
theorem claim_C3_markers_necessary (entry_id : String)
    (h : containsSub "_HelmRelease" entry_id = false ∨
      containsSub "helm.toolkit.fluxcd.io" entry_id = false) :
    parseInventoryEntry entry_id = none :=
  parseInventoryEntry_none_of_no_marker entry_id h

theorem claim_C3_markers_necessary_witness :
    parseInventoryEntry "teamA_web-release__ConfigMap" = none :=
  claim_C3_markers_necessary _ (Or.inl (by decide))

/-- C9: a distinguished owner label present with an empty-string value is
read like an absent label: the detector emits no record for such a
candidate, whatever the ownership set. -/
theorem claim_C9_empty_label (helmreleases : List CandidateResource)
    (managed : Finset String) (hr : CandidateResource)
    (h : getLabel hr.labels ksNameLabel = some "" ∨
      getLabel hr.labels ksNamespaceLabel = some "") :
    ¬ ∃ r ∈ find_orphaned_helmreleases helmreleases managed, r.raw = hr := by
  rintro ⟨r, hrmem, hraw⟩
  obtain ⟨hr', hhr', hsome⟩ := (mem_find_orphaned _ _ _).1 hrmem
  have heq : hr' = hr := (orphanCheck_raw _ _ _ hsome).symm.trans hraw
  subst heq
  have hcar := ((orphanCheck_isSome_iff _ _).1 (by rw [hsome]; rfl)).1
  rcases h with h | h <;> simp [carriesOwnerLabels, h, truthyStr] at hcar

theorem claim_C9_empty_label_witness :
    ¬ ∃ r ∈ find_orphaned_helmreleases
        [{ name := "web-release", namespace' := "teamA",
           labels := [(ksNameLabel, ""), (ksNamespaceLabel, "flux-system")] }] ∅,
      r.raw = { name := "web-release", namespace' := "teamA",
                labels := [(ksNameLabel, ""), (ksNamespaceLabel, "flux-system")] } :=
  claim_C9_empty_label _ _ _ (Or.inl (by decide))

/-- C7: the ownership set builder produces a duplicate-free set, its
result is invariant under permutation of the owner-record list, the empty
record list yields the empty set, and against that empty set every
labeled candidate in the input is reported orphaned. -/
theorem claim_C7_builder :
    (∀ kustomizations : List Kustomization,
        (get_managed_helmreleases_from_inventory kustomizations).val.Nodup) ∧
    (∀ ks1 ks2 : List Kustomization, List.Perm ks1 ks2 →
        get_managed_helmreleases_from_inventory ks1 =
          get_managed_helmreleases_from_inventory ks2) ∧
    get_managed_helmreleases_from_inventory [] = ∅ ∧
    (∀ (helmreleases : List CandidateResource) (hr : CandidateResource),
        hr ∈ helmreleases → carriesOwnerLabels hr = true →
        ∃ r ∈ find_orphaned_helmreleases helmreleases
            (get_managed_helmreleases_from_inventory []), r.raw = hr) := by
  refine ⟨fun ks => (get_managed_helmreleases_from_inventory ks).nodup, ?_, rfl, ?_⟩
  · intro ks1 ks2 h
    apply Finset.ext
    intro x
    rw [mem_get_managed_iff, mem_get_managed_iff]
    constructor
    · rintro ⟨k, hk, rest⟩
      exact ⟨k, h.mem_iff.1 hk, rest⟩
    · rintro ⟨k, hk, rest⟩
      exact ⟨k, h.mem_iff.2 hk, rest⟩
  · intro helmreleases hr hmem hcar
    have hempty : releaseKey hr.namespace' hr.name ∉
        get_managed_helmreleases_from_inventory [] := by
      rw [show get_managed_helmreleases_from_inventory [] = ∅ from rfl]
      exact Finset.not_mem_empty _
    have hsome : (orphanCheck (get_managed_helmreleases_from_inventory []) hr).isSome = true :=
      (orphanCheck_isSome_iff _ _).2 ⟨hcar, hempty⟩
    obtain ⟨r, hr_eq⟩ := Option.isSome_iff_exists.1 hsome
    exact ⟨r, (mem_find_orphaned _ _ _).2 ⟨hr, hmem, hr_eq⟩, orphanCheck_raw _ _ _ hr_eq⟩

theorem claim_C7_builder_witness :
    ∃ r ∈ find_orphaned_helmreleases [sampleHr "teamA" "web-release"]
        (get_managed_helmreleases_from_inventory []),
      r.raw = sampleHr "teamA" "web-release" :=
  claim_C7_builder.2.2.2 _ _ (by decide) (by decide)

/-- C5: every deletion call the workflow issues targets the
`(namespace, name)` of some record of the frozen orphan list it was given;
it never deletes outside that list. -/
theorem claim_C5_no_outside_deletion (del : String → String → Bool)
    (orphans : List OrphanRecord) (inputs : List String)
    (p : String × String)
    (hp : p ∈ (cleanup_orphans_interactive del orphans inputs).st.deletions) :
    ∃ o ∈ orphans, p = (o.namespace', o.name) := by
  by_cases he : orphans.isEmpty
  · rw [cleanup_orphans_interactive, if_pos he] at hp
    exact absurd hp (by simp [initSt])
  · rw [cleanup_orphans_interactive, if_neg he] at hp
    refine runCleanup_deletions del inputs _ initSt
      (fun q => ∃ o ∈ orphans, q = (o.namespace', o.name)) ?_ ?_ p hp
    · intro q hq
      exact absurd hq (by simp [initSt])
    · intro o ho
      refine ⟨o, ?_, rfl⟩
      exact (groupByNamespace_flatten_perm orphans).mem_iff.1 (by simpa [pendingOf] using ho)

theorem claim_C5_no_outside_deletion_witness :
    ∃ o ∈ [sampleOrphan "ns1" "a"],
      (("ns1", "a") : String × String) = (o.namespace', o.name) :=
  claim_C5_no_outside_deletion delOk [sampleOrphan "ns1" "a"] ["y"]
    ("ns1", "a") (by decide)

/-- C4 counterexample: with one orphan and the operator answering `q` at
the namespace prompt, the workflow aborts with no outcome recorded, yet
the summary it prints counts the never-visited orphan in the skipped
tally (`some (0, 1)`), contradicting "not counted in the reported
tallies". -/
theorem claim_C4_counterexample :
    (cleanup_orphans_interactive delOk [sampleOrphan "ns1" "a"] ["q"]).term =
        TermKind.abortedAtNamespace ∧
      (cleanup_orphans_interactive delOk [sampleOrphan "ns1" "a"] ["q"]).st.outcomes = [] ∧
      (cleanup_orphans_interactive delOk [sampleOrphan "ns1" "a"] ["q"]).unvisited =
        [sampleOrphan "ns1" "a"] ∧
      (cleanup_orphans_interactive delOk [sampleOrphan "ns1" "a"] ["q"]).reported =
        some (0, 1) := by
  decide

/-- C4 (amended): `quit` at any prompt aborts the whole workflow at once
and every not-yet-visited orphan receives no outcome (the recorded
outcomes together with the unvisited orphans are exactly the input list);
`quit` at a per-resource prompt reports no tallies at all, while `quit` at
a namespace prompt prints a summary whose skipped tally additionally
counts every not-yet-visited orphan. -/
theorem claim_C4_quit_semantics (del : String → String → Bool)
    (orphans : List OrphanRecord) (inputs : List String) :
    ((cleanup_orphans_interactive del orphans inputs).term =
        TermKind.abortedAtResource →
      (cleanup_orphans_interactive del orphans inputs).reported = none) ∧
    ((cleanup_orphans_interactive del orphans inputs).term =
        TermKind.abortedAtNamespace →
      (cleanup_orphans_interactive del orphans inputs).reported =
        some ((cleanup_orphans_interactive del orphans inputs).st.deleted_count,
          (cleanup_orphans_interactive del orphans inputs).st.skipped_count +
            (cleanup_orphans_interactive del orphans inputs).unvisited.length)) ∧
    List.Perm
      ((cleanup_orphans_interactive del orphans inputs).st.outcomes.map Prod.fst ++
        (cleanup_orphans_interactive del orphans inputs).unvisited)
      orphans := by
  by_cases he : orphans.isEmpty
  · rw [cleanup_orphans_interactive, if_pos he]
    refine ⟨?_, ?_, ?_⟩
    · intro h
      exact absurd h (by decide)
    · intro h
      exact absurd h (by decide)
    · rw [List.isEmpty_iff.1 he]
      exact List.Perm.refl _
  · rw [cleanup_orphans_interactive, if_neg he]
    have hrep := runCleanup_reported del inputs
      (CtrlSt.atNamespaces (groupByNamespace orphans)) initSt
    refine ⟨hrep.2.2.1, hrep.2.1, ?_⟩
    have htr := runCleanup_trace del inputs
      (CtrlSt.atNamespaces (groupByNamespace orphans)) initSt
    rw [htr]
    simpa [initSt, pendingOf] using groupByNamespace_flatten_perm orphans

theorem claim_C4_quit_semantics_witness :
    (cleanup_orphans_interactive delOk [sampleOrphan "ns1" "a"] ["s", "q"]).reported =
      none :=
  (claim_C4_quit_semantics delOk [sampleOrphan "ns1" "a"] ["s", "q"]).1 (by decide)

/-- C6 counterexample: with one orphan, answering `s` then `q` aborts the
workflow by quit inside select mode, and no accounting of deleted and
skipped counts is produced at all. -/
theorem claim_C6_counterexample :
    (cleanup_orphans_interactive delOk [sampleOrphan "ns1" "a"] ["s", "q"]).term =
        TermKind.abortedAtResource ∧
      (cleanup_orphans_interactive delOk [sampleOrphan "ns1" "a"] ["s", "q"]).reported =
        none := by
  decide

/-- C6 (amended): the workflow always terminates (the model is a total
function of the finite input script), and it produces a final accounting
of the deleted and skipped counts when it completes every namespace of a
non-empty orphan list or when it is aborted by `quit` at a namespace
prompt; `quit` at a per-resource prompt aborts without producing any
accounting. -/
theorem claim_C6_accounting (del : String → String → Bool)
    (orphans : List OrphanRecord) (inputs : List String) :
    ((cleanup_orphans_interactive del orphans inputs).term = TermKind.completed →
      (cleanup_orphans_interactive del orphans inputs).reported =
        some ((cleanup_orphans_interactive del orphans inputs).st.deleted_count,
          (cleanup_orphans_interactive del orphans inputs).st.skipped_count)) ∧
    ((cleanup_orphans_interactive del orphans inputs).term =
        TermKind.abortedAtNamespace →
      ∃ d s, (cleanup_orphans_interactive del orphans inputs).reported = some (d, s)) ∧
    ((cleanup_orphans_interactive del orphans inputs).term =
        TermKind.abortedAtResource →
      (cleanup_orphans_interactive del orphans inputs).reported = none) := by
  by_cases he : orphans.isEmpty
  · rw [cleanup_orphans_interactive, if_pos he]
    refine ⟨?_, ?_, ?_⟩ <;> intro h <;> exact absurd h (by decide)
  · rw [cleanup_orphans_interactive, if_neg he]
    have hrep := runCleanup_reported del inputs
      (CtrlSt.atNamespaces (groupByNamespace orphans)) initSt
    exact ⟨fun h => (hrep.1 h).1, fun h => ⟨_, _, hrep.2.1 h⟩, hrep.2.2.1⟩

theorem claim_C6_accounting_witness :
    (cleanup_orphans_interactive delOk [sampleOrphan "ns1" "a"] ["y"]).reported =
      some ((cleanup_orphans_interactive delOk [sampleOrphan "ns1" "a"] ["y"]).st.deleted_count,
        (cleanup_orphans_interactive delOk [sampleOrphan "ns1" "a"] ["y"]).st.skipped_count) :=
  (claim_C6_accounting delOk [sampleOrphan "ns1" "a"] ["y"]).1 (by decide)

/-- C10: when the workflow runs to completion without abort, every orphan
of the input list receives exactly one recorded outcome (the recorded
outcomes are a permutation of the input list) and the final counts
satisfy `deleted + skipped = total`. -/
theorem claim_C10_complete_accounting (del : String → String → Bool)
    (orphans : List OrphanRecord) (inputs : List String)
    (h : (cleanup_orphans_interactive del orphans inputs).term = TermKind.completed ∨
      (cleanup_orphans_interactive del orphans inputs).term = TermKind.noWork) :
    List.Perm
        ((cleanup_orphans_interactive del orphans inputs).st.outcomes.map Prod.fst)
        orphans ∧
      (cleanup_orphans_interactive del orphans inputs).st.deleted_count +
        (cleanup_orphans_interactive del orphans inputs).st.skipped_count =
        orphans.length := by
  by_cases he : orphans.isEmpty
  · rw [cleanup_orphans_interactive, if_pos he]
    rw [List.isEmpty_iff.1 he]
    exact ⟨List.Perm.refl _, rfl⟩
  · rw [cleanup_orphans_interactive, if_neg he] at h ⊢
    have hrep := runCleanup_reported del inputs
      (CtrlSt.atNamespaces (groupByNamespace orphans)) initSt
    have hcompl : (runCleanup del inputs
        (CtrlSt.atNamespaces (groupByNamespace orphans)) initSt).term =
        TermKind.completed := by
      rcases h with h | h
      · exact h
      · exact absurd h hrep.2.2.2.2
    have hunv := (hrep.1 hcompl).2
    have htr := runCleanup_trace del inputs
      (CtrlSt.atNamespaces (groupByNamespace orphans)) initSt
    rw [hunv, List.append_nil] at htr
    have hperm : List.Perm
        ((runCleanup del inputs (CtrlSt.atNamespaces (groupByNamespace orphans))
          initSt).st.outcomes.map Prod.fst) orphans := by
      rw [htr]
      simpa [initSt, pendingOf] using groupByNamespace_flatten_perm orphans
    refine ⟨hperm, ?_⟩
    have hcnt := runCleanup_counts del inputs
      (CtrlSt.atNamespaces (groupByNamespace orphans)) initSt
    have hlen : (runCleanup del inputs (CtrlSt.atNamespaces (groupByNamespace orphans))
        initSt).st.outcomes.length = orphans.length := by
      have := hperm.length_eq
      simpa using this
    rw [show initSt.outcomes.length = 0 from rfl, show initSt.deleted_count = 0 from rfl,
      show initSt.skipped_count = 0 from rfl] at hcnt
    omega

theorem claim_C10_complete_accounting_witness :
    List.Perm
        ((cleanup_orphans_interactive delOk [sampleOrphan "ns1" "a"] ["y"]).st.outcomes.map
          Prod.fst)
        [sampleOrphan "ns1" "a"] ∧
      (cleanup_orphans_interactive delOk [sampleOrphan "ns1" "a"] ["y"]).st.deleted_count +
        (cleanup_orphans_interactive delOk [sampleOrphan "ns1" "a"] ["y"]).st.skipped_count =
        [sampleOrphan "ns1" "a"].length :=
  claim_C10_complete_accounting delOk [sampleOrphan "ns1" "a"] ["y"] (Or.inl (by decide))

/-- The three orphans of Scenario E, all in namespace `"team"`. -/
def c8orphans : List OrphanRecord :=
  [sampleOrphan "team" "a", sampleOrphan "team" "b", sampleOrphan "team" "c"]

/-- C8: in select mode with three orphans in one namespace and answers
`yes, no, yes`, exactly two deletion calls are attempted (on the first and
third orphan), each recorded `Deleted` on success and `SkippedByFailure`
on failure, and exactly one orphan is recorded `SkippedByChoice` —
whatever the outcome of the delete calls. -/
theorem claim_C8_select_scenario (del : String → String → Bool) :
    (cleanup_orphans_interactive del c8orphans ["s", "y", "n", "y"]).st.deletions =
        [("team", "a"), ("team", "c")] ∧
      (cleanup_orphans_interactive del c8orphans ["s", "y", "n", "y"]).st.outcomes.map
          Prod.snd =
        [if del "team" "a" then CleanupOutcome.Deleted else CleanupOutcome.SkippedByFailure,
         CleanupOutcome.SkippedByChoice,
         if del "team" "c" then CleanupOutcome.Deleted
         else CleanupOutcome.SkippedByFailure] ∧
      ((cleanup_orphans_interactive del c8orphans ["s", "y", "n", "y"]).st.outcomes.map
          Prod.snd).count CleanupOutcome.SkippedByChoice = 1 := by
  refine ⟨rfl, rfl, ?_⟩
  have h : (cleanup_orphans_interactive del c8orphans ["s", "y", "n", "y"]).st.outcomes.map
      Prod.snd =
      [if del "team" "a" then CleanupOutcome.Deleted else CleanupOutcome.SkippedByFailure,
       CleanupOutcome.SkippedByChoice,
       if del "team" "c" then CleanupOutcome.Deleted
       else CleanupOutcome.SkippedByFailure] := rfl
  rw [h]
  cases del "team" "a" <;> cases del "team" "c" <;> rfl
